import Mathlib

/-!
Verification development for the Bézier curve / hodograph visualizer
(`src/main.py`).  The geometry engine of the program is embedded shallowly:

* a Python point dict `{"x": ..., "y": ...}` becomes `Point` with exact
  rational coordinates (every IEEE double is a rational, and the claims
  about the engine are stated "in exact arithmetic");
* `math.hypot`-based distances appear in the source only (a) compared with
  one another or with the constant `HIT_R`, or (b) summed in
  `approximate_length` / `curvature_at`.  For (a) the embedding compares
  *squared* distances (`dist2`, `point_to_segment_distance_sq`) against
  squared thresholds — `Real.sqrt` is strictly monotone on nonnegatives, so
  every comparison in the source holds iff the squared comparison holds
  (bridging lemmas `rdist_le_rdist_iff`, `rdist_le_hitR_iff`,
  `rdist_lt_hitR_iff` below make this exact); this keeps the scan/fold
  logic computable.  For (b) the value itself matters and the embedding
  uses `Real.sqrt` over the exact rational squares.
* Python code that would raise (`de_casteljau` on an empty list hits
  `tmp[0]` → `IndexError`) returns `Option`.
-/

namespace BezierViz

/-- A 2-D point / free vector, the engine's `{"x": px, "y": py}` record. -/
structure Point where
  x : ℚ
  y : ℚ
deriving DecidableEq, Repr

instance : Inhabited Point := ⟨⟨0, 0⟩⟩

/-- `points[i]` — list indexing with the (never used out of range) default. -/
def ptD (l : List Point) (i : ℕ) : Point := l.getD i ⟨0, 0⟩

/-- Constant `HIT_R = 10` from the source. -/
def HIT_R : ℚ := 10

/-- `lerp(a, b, t)` from the source. -/
def lerp (a b : Point) (t : ℚ) : Point :=
  ⟨(1 - t) * a.x + t * b.x, (1 - t) * a.y + t * b.y⟩

/-- Square of the source's `dist(p, x, y) = math.hypot(p.x - x, p.y - y)`.
The source only ever compares these values; squaring preserves every
comparison (see `rdist_le_rdist_iff` etc.). -/
def dist2 (p : Point) (x y : ℚ) : ℚ := (p.x - x) ^ 2 + (p.y - y) ^ 2

/-- The exact value of the source's `dist(p, x, y)` (real Euclidean
distance), used to state the claims; noncomputable because of `Real.sqrt`. -/
noncomputable def rdist (p : Point) (x y : ℚ) : ℝ :=
  Real.sqrt (((dist2 p x y : ℚ) : ℝ))

/-- Square of `point_to_segment_distance(p, a, b)`; same three-way branch
structure as the source (`c1 <= 0` → distance to `a`; `c2 <= c1` →
distance to `b`; otherwise perpendicular distance to the projection). -/
def point_to_segment_distance_sq (p a b : Point) : ℚ :=
  let vx := b.x - a.x
  let vy := b.y - a.y
  let wx := p.x - a.x
  let wy := p.y - a.y
  let c1 := vx * wx + vy * wy
  if c1 ≤ 0 then (p.x - a.x) ^ 2 + (p.y - a.y) ^ 2
  else
    let c2 := vx * vx + vy * vy
    if c2 ≤ c1 then (p.x - b.x) ^ 2 + (p.y - b.y) ^ 2
    else
      let t := c1 / c2
      let projx := a.x + t * vx
      let projy := a.y + t * vy
      (p.x - projx) ^ 2 + (p.y - projy) ^ 2

/-- `binom(n, k)` from the source: `r = 1; for i in range(1, k+1):
r = r * (n + 1 - i) / i` — the Python loop index `i ∈ 1..k` is `j + 1`
for `j ∈ List.range k`.  Exact over ℚ. -/
def binom (n k : ℕ) : ℚ :=
  (List.range k).foldl (fun (r : ℚ) (j : ℕ) => r * ((n : ℚ) + 1 - ((j : ℚ) + 1)) / ((j : ℚ) + 1)) 1

/-- `bern(n, i, t)` from the source (callers only use `i ≤ n`, where the
Python float exponent `n - i` agrees with ℕ subtraction). -/
def bern (n i : ℕ) (t : ℚ) : ℚ := binom n i * t ^ i * (1 - t) ^ (n - i)

/-- One round of the in-place loop of `de_casteljau`: in round `r` the
source overwrites `tmp[i] = lerp(tmp[i], tmp[i+1], t)` for
`i ∈ 0..n-r-1`, each `tmp[i+1]` still holding the previous round's value,
i.e. it replaces the row by the row of pairwise lerps. -/
def deCasteljauStep (t : ℚ) : List Point → List Point
  | a :: b :: rest => lerp a b t :: deCasteljauStep t (b :: rest)
  | _ => []

/-- `de_casteljau(points, t)`: runs `len(points) - 1` rounds and returns
`tmp[0]`.  On an empty list the source raises `IndexError` at `tmp[0]`;
here that is `none`. -/
def de_casteljau (points : List Point) (t : ℚ) : Option Point :=
  ((deCasteljauStep t)^[points.length - 1] points).head?

/-- The loop of `de_casteljau_levels`: `k` remaining rounds starting from
row `cur`, collecting every row. -/
def levelsAux (t : ℚ) : ℕ → List Point → List (List Point)
  | 0, cur => [cur]
  | k + 1, cur => cur :: levelsAux t k (deCasteljauStep t cur)

/-- `de_casteljau_levels(points, t)` from the source: level 0 is (a copy
of) the input, each next level the pairwise lerps of the previous one,
`len(points) - 1` rounds in total. -/
def de_casteljau_levels (points : List Point) (t : ℚ) : List (List Point) :=
  levelsAux t (points.length - 1) points

/-- `hodograph_control_points(points)`: for `n = len(points) - 1 ≥ 1` the
list `[n * (points[i+1] - points[i]) for i in range(n)]`; for `n ≤ 0` the
empty list (the `zipWith` over the tail is empty exactly then). -/
def hodograph_control_points (points : List Point) : List Point :=
  let n : ℚ := ((points.length - 1 : ℕ) : ℚ)
  List.zipWith (fun a b => Point.mk (n * (b.x - a.x)) (n * (b.y - a.y))) points points.tail

/-- `derivative(points, t)`: zero vector when `n = len(points) - 1 ≤ 0`
(in Python `n` may be `-1`; length ≤ 1 covers both cases), otherwise the
Bernstein sum `Σ_{i<n} n·(points[i+1] - points[i])·bern(n-1, i, t)`. -/
def derivative (points : List Point) (t : ℚ) : Point :=
  if points.length ≤ 1 then ⟨0, 0⟩
  else
    let n := points.length - 1
    ⟨∑ i ∈ Finset.range n, (n : ℚ) * ((ptD points (i + 1)).x - (ptD points i).x) * bern (n - 1) i t,
     ∑ i ∈ Finset.range n, (n : ℚ) * ((ptD points (i + 1)).y - (ptD points i).y) * bern (n - 1) i t⟩

/-- `second_derivative(points, t)`: zero vector when `n ≤ 1` (length ≤ 2),
otherwise `Σ_{i<n-1} n·(n-1)·(points[i+2] - 2·points[i+1] + points[i])·bern(n-2, i, t)`. -/
def second_derivative (points : List Point) (t : ℚ) : Point :=
  if points.length ≤ 2 then ⟨0, 0⟩
  else
    let n := points.length - 1
    ⟨∑ i ∈ Finset.range (n - 1), (n : ℚ) * ((n : ℚ) - 1) *
        ((ptD points (i + 2)).x - 2 * (ptD points (i + 1)).x + (ptD points i).x) * bern (n - 2) i t,
     ∑ i ∈ Finset.range (n - 1), (n : ℚ) * ((n : ℚ) - 1) *
        ((ptD points (i + 2)).y - 2 * (ptD points (i + 1)).y + (ptD points i).y) * bern (n - 2) i t⟩

/-- `curvature_at(points, t)`: `v = math.hypot(d.x, d.y)`; if `v < 1e-9`
return `0`, else `|d.x·dd.y − d.y·dd.x| / v³`. -/
noncomputable def curvature_at (points : List Point) (t : ℚ) : ℝ :=
  let d := derivative points t
  let dd := second_derivative points t
  let v : ℝ := Real.sqrt (((d.x ^ 2 + d.y ^ 2 : ℚ) : ℝ))
  if v < 1e-9 then 0 else |((d.x * dd.y - d.y * dd.x : ℚ) : ℝ)| / v ^ 3

/-- Total wrapper around `de_casteljau` used to spell out
`approximate_length`; the source never reaches the default (it raises on
an empty segment before summing anything, cf. `approximate_length`). -/
def evalPt (seg : List Point) (t : ℚ) : Point := (de_casteljau seg t).getD ⟨0, 0⟩

/-- `math.hypot` of two exact rational components, as a real. -/
noncomputable def hypotR (dx dy : ℚ) : ℝ := Real.sqrt (((dx ^ 2 + dy ^ 2 : ℚ) : ℝ))

/-- The chord length `math.hypot(p.x - q.x, p.y - q.y)` summed by
`approximate_length`. -/
noncomputable def chordR (p q : Point) : ℝ := hypotR (p.x - q.x) (p.y - q.y)

/-- `approximate_length(seg, steps)`: `prev = de_casteljau(seg, 0)` raises
on an empty segment (`none` here); otherwise the loop accumulates
`hypot(P(i/steps) − P((i−1)/steps))` for `i = 1..steps`, reindexed below
as chords between `(i+1)/steps` and `i/steps` for `i ∈ range steps`. -/
noncomputable def approximate_length (seg : List Point) (steps : ℕ) : Option ℝ :=
  match de_casteljau seg 0 with
  | none => none
  | some _ => some (∑ i ∈ Finset.range steps,
      chordR (evalPt seg (((i : ℚ) + 1) / (steps : ℚ))) (evalPt seg ((i : ℚ) / (steps : ℚ))))

/-! ### The canvas / window operations on the segment collection

The source scans with the pattern `best = ...; best_d = inf; ... if d <
best_d: best_d = d; best = ...` — a stable first-minimum fold.  `minUpd`
is that update step with `none` playing the role of `float("inf")` and the
running "best" recorded as an index (the source keeps a reference, which
identifies the same position). -/

/-- `d < best_d`, where `best_d = float("inf")` is `none`. -/
def ltOpt (d : ℚ) : Option ℚ → Bool
  | none => true
  | some b => decide (d < b)

/-- One step of the source's `if d < best_d: best_d = d; best = si` scan,
on (tag, key) pairs. -/
def minUpd (st : ℕ × Option ℚ) (p : ℕ × ℚ) : ℕ × Option ℚ :=
  if ltOpt p.2 st.2 then (p.1, some p.2) else st

/-- Scan order of `_find_closest_point` / `_remove_point`: segments in
order, points of each segment in order — the flattened collection. -/
def scanPts (segments : List (List Point)) : List Point := segments.flatten

/-- `_find_closest_point(x, y)`: nested loops keeping the strictly closest
point seen so far (first minimum wins), then `best if best_d <= HIT_R else
None`.  The running best reference is represented by its position in the
flattened scan list. -/
def find_closest_point (segments : List (List Point)) (x y : ℚ) : Option Point :=
  let pts := scanPts segments
  let r := (pts.enum.map (fun ip => (ip.1, dist2 ip.2 x y))).foldl minUpd (0, none)
  match r.2 with
  | none => none
  | some m => if m ≤ HIT_R ^ 2 then some (ptD pts r.1) else none

/-- The candidate distances one segment contributes to the scan of
`_add_control_point`: the edge distances
`point_to_segment_distance(p, seg[i], seg[i+1])` for `i ∈ range(len-1)`,
plus — only when `len(seg) == 1` — the direct distance to its sole
point.  (All squared, see the header.) -/
def candDists (x y : ℚ) (seg : List Point) : List ℚ :=
  List.zipWith (fun a b => point_to_segment_distance_sq ⟨x, y⟩ a b) seg seg.tail ++
    (match seg with
     | [p] => [dist2 p x y]
     | _ => [])

/-- All candidates of the whole collection, tagged with their segment
index `si` (the source's `for si, seg in enumerate(segments)`). -/
def allCands (x y : ℚ) : List (List Point) → ℕ → List (ℕ × ℚ)
  | [], _ => []
  | seg :: rest, si => (candDists x y seg).map (fun d => (si, d)) ++ allCands x y rest (si + 1)

/-- The `best_seg` computed by `_add_control_point`: first-minimum scan
over all candidates, starting from `best_seg = 0`, `best_d = inf`. -/
def bestInsertionSeg (segments : List (List Point)) (x y : ℚ) : ℕ :=
  ((allCands x y segments 0).foldl minUpd (0, none)).1

/-- `min(range(len(seg)), key=lambda i: dist(seg[i], x, y))` over the
given key list: Python's `min` keeps the first of equal minima, the same
stable scan as `minUpd` (nonempty input starts by taking index 0). -/
def argminIdx (keys : List ℚ) : ℕ := (keys.enum.foldl minUpd (0, none)).1

/-- `_add_control_point(x, y)`: pick `best_seg`, then either append to an
empty segment or insert after the directly-nearest existing point. -/
def add_point (segments : List (List Point)) (x y : ℚ) : List (List Point) :=
  let bs := bestInsertionSeg segments x y
  let seg := segments.getD bs []
  if seg.isEmpty then segments.set bs [⟨x, y⟩]
  else
    let idx := argminIdx (seg.map (fun p => dist2 p x y))
    segments.set bs (seg.insertIdx (idx + 1) ⟨x, y⟩)

/-- First index of a point of `seg` with `dist(p, x, y) < HIT_R`
(squared comparison), the inner loop of `_remove_point`. -/
def findHit (x y : ℚ) (seg : List Point) : Option ℕ :=
  seg.findIdx? (fun p => decide (dist2 p x y < HIT_R ^ 2))

/-- `_remove_point(x, y)`: skip segments with ≤ 2 points; in the first
remaining segment containing a point within `HIT_R`, pop that (first such)
point and stop. -/
def remove_point (segments : List (List Point)) (x y : ℚ) : List (List Point) :=
  match segments with
  | [] => []
  | seg :: rest =>
    if seg.length ≤ 2 then seg :: remove_point rest x y
    else
      match findHit x y seg with
      | some i => seg.eraseIdx i :: rest
      | none => seg :: remove_point rest x y

/-- `MainWindow._remove_segment`: `if len(segments) > 1: segments.pop()`. -/
def remove_segment (segments : List (List Point)) : List (List Point) :=
  if 1 < segments.length then segments.dropLast else segments

/-- `MainWindow._reset`: `segments = deepcopy(EMPTY_START)` with
`EMPTY_START = [[]]` (the animation state is also reset; only the
collection matters here). -/
def reset_collection : List (List Point) := [[]]

/-- The collection operations whose sequencing C9 is about. -/
inductive CollectionOp where
  | removeSeg : CollectionOp
  | reset : CollectionOp
deriving DecidableEq, Repr

def applyOp (segments : List (List Point)) : CollectionOp → List (List Point)
  | CollectionOp.removeSeg => remove_segment segments
  | CollectionOp.reset => reset_collection

def applyOps (segments : List (List Point)) (ops : List CollectionOp) : List (List Point) :=
  ops.foldl applyOp segments

/-- `refresh_ui_and_canvases`'s total length:
`sum(approximate_length(seg) for seg in segments if len(seg) >= 2)` with
the default `steps = 200`; a `none` from `approximate_length` (the
source's `IndexError`) would poison the sum. -/
noncomputable def total_length (segments : List (List Point)) : Option ℝ :=
  ((segments.filter (fun s => 2 ≤ s.length)).mapM (fun s => approximate_length s 200)).map
    (fun l => l.sum)

/-! ### Proof-layer definitions (abbreviations used only to state and
prove the theorems below; they introduce no behaviour of their own) -/

/-- The scalar shadow of `deCasteljauStep`, used to prove the Bernstein
closed form componentwise. -/
def sstep (t : ℚ) : List ℚ → List ℚ
  | a :: b :: rest => ((1 - t) * a + t * b) :: sstep t (b :: rest)
  | _ => []

/-- The tagged key list scanned by `_find_closest_point`. -/
def fcpKeys (segments : List (List Point)) (x y : ℚ) : List (ℕ × ℚ) :=
  (scanPts segments).enum.map (fun ip => (ip.1, dist2 ip.2 x y))

/-- "`p` lies (strictly) within the hit radius of `(x, y)`": the source's
`dist(p, x, y) < HIT_R`, with the true Euclidean distance. -/
def withinHit (x y : ℚ) (p : Point) : Prop := rdist p x y < (10 : ℝ)

/-- A segment `_remove_point` may act on: more than 2 points and at least
one point within the hit radius. -/
def removable (x y : ℚ) (seg : List Point) : Prop :=
  2 < seg.length ∧ ∃ p ∈ seg, withinHit x y p

/-- The pure nearest-*edge* candidate list of one segment, following the
claim's words ("the segment whose edge has minimal
point_to_segment_distance"): consecutive-pair edges only, no special rule
for single-point segments.  Used to compare the claim's selection rule
with the one the code implements (`candDists`). -/
def edgeDists (x y : ℚ) (seg : List Point) : List ℚ :=
  List.zipWith (fun a b => point_to_segment_distance_sq ⟨x, y⟩ a b) seg seg.tail

/-! ## Basic lemmas about `lerp` and the de Casteljau round -/

theorem lerp_zero (a b : Point) : lerp a b 0 = a := by
  simp [lerp]

theorem lerp_one (a b : Point) : lerp a b 1 = b := by
  simp [lerp]

theorem deCasteljauStep_length (t : ℚ) :
    ∀ l : List Point, (deCasteljauStep t l).length = l.length - 1
  | [] => rfl
  | [_] => rfl
  | a :: b :: rest => by
    simp only [deCasteljauStep, List.length_cons, deCasteljauStep_length t (b :: rest)]
    omega

theorem deCasteljauStep_zero :
    ∀ l : List Point, 2 ≤ l.length → (deCasteljauStep 0 l).head? = l.head?
  | a :: b :: _, _ => by simp [deCasteljauStep, lerp_zero]

theorem iterate_step_zero_head (k : ℕ) :
    ∀ l : List Point, l.length = k + 1 → ((deCasteljauStep 0)^[k] l).head? = l.head? := by
  induction k with
  | zero => intro l _; rfl
  | succ k ih =>
    intro l hl
    rw [Function.iterate_succ_apply]
    have hlen : (deCasteljauStep 0 l).length = k + 1 := by
      rw [deCasteljauStep_length]; omega
    rw [ih _ hlen]
    exact deCasteljauStep_zero l (by omega)

theorem deCasteljauStep_one : ∀ l : List Point, deCasteljauStep 1 l = l.tail
  | [] => rfl
  | [_] => rfl
  | a :: b :: rest => by
    simp only [deCasteljauStep, lerp_one, List.tail_cons]
    exact congrArg _ (deCasteljauStep_one (b :: rest))

theorem iterate_step_one (k : ℕ) (l : List Point) :
    (deCasteljauStep 1)^[k] l = l.drop k := by
  induction k generalizing l with
  | zero => rfl
  | succ k ih =>
    rw [Function.iterate_succ_apply, deCasteljauStep_one, ih, ← List.drop_one,
      List.drop_drop, Nat.add_comm]

/-- **C1.** For every segment with at least 2 control points,
`evaluate(segment, 0)` is the first control point and
`evaluate(segment, 1)` the last one, exactly, over the exact rational
arithmetic in which the engine is embedded (over floats both lerp
coefficient pairs `(1, 0)` and `(0, 1)` are also exact, so the 1e-9
tolerance of the spec is met with slack). -/
theorem endpoint_interpolation (points : List Point) (h : 2 ≤ points.length) :
    de_casteljau points 0 = points.head? ∧ de_casteljau points 1 = points.getLast? := by
  constructor
  · exact iterate_step_zero_head (points.length - 1) points (by omega)
  · show ((deCasteljauStep 1)^[points.length - 1] points).head? = _
    rw [iterate_step_one, List.getLast?_eq_getElem?, List.head?_eq_getElem?,
      List.getElem?_drop, Nat.add_zero]

/-- Witness for C1 on the concrete quadratic segment `[(0,0),(1,2),(3,0)]`. -/
theorem endpoint_interpolation_witness :
    de_casteljau [(⟨0, 0⟩ : Point), ⟨1, 2⟩, ⟨3, 0⟩] 0 = some ⟨0, 0⟩ ∧
      de_casteljau [(⟨0, 0⟩ : Point), ⟨1, 2⟩, ⟨3, 0⟩] 1 = some ⟨3, 0⟩ :=
  endpoint_interpolation [⟨0, 0⟩, ⟨1, 2⟩, ⟨3, 0⟩] (by simp)

/-! ## The level trace (C3) -/

theorem iterate_step_length (t : ℚ) (r : ℕ) (l : List Point) :
    ((deCasteljauStep t)^[r] l).length = l.length - r := by
  induction r generalizing l with
  | zero => rfl
  | succ r ih =>
    rw [Function.iterate_succ_apply, ih, deCasteljauStep_length]
    omega

theorem levelsAux_length (t : ℚ) : ∀ (k : ℕ) (cur : List Point),
    (levelsAux t k cur).length = k + 1
  | 0, _ => rfl
  | k + 1, cur => by
    simp only [levelsAux, List.length_cons, levelsAux_length t k]

theorem levelsAux_head (t : ℚ) (k : ℕ) (cur : List Point) :
    (levelsAux t k cur).head? = some cur := by
  cases k <;> rfl

theorem levelsAux_getD (t : ℚ) : ∀ (k r : ℕ) (cur : List Point), r ≤ k →
    (levelsAux t k cur).getD r [] = (deCasteljauStep t)^[r] cur
  | _, 0, _, _ => by cases ‹ℕ› <;> rfl
  | k + 1, r + 1, cur, h => by
    simp only [levelsAux, List.getD_cons_succ]
    rw [levelsAux_getD t k r (deCasteljauStep t cur) (by omega),
      ← Function.iterate_succ_apply]

theorem levelsAux_getLast (t : ℚ) : ∀ (k : ℕ) (cur : List Point),
    (levelsAux t k cur).getLast? = some ((deCasteljauStep t)^[k] cur)
  | 0, _ => rfl
  | k + 1, cur => by
    simp only [levelsAux, List.getLast?_cons, levelsAux_getLast t k,
      Option.getD_some, Function.iterate_succ_apply]

/-- **C3.** For a segment of `n + 1 ≥ 1` control points,
`evaluate_levels(segment, t)` has exactly `n + 1` levels: level 0 is the
input, each level has one point fewer than the previous one, and the last
level is a single point, equal to `evaluate(segment, t)`. -/
theorem level_trace (points : List Point) (t : ℚ) (n : ℕ) (h : points.length = n + 1) :
    (de_casteljau_levels points t).length = n + 1 ∧
      (de_casteljau_levels points t).head? = some points ∧
      (∀ r < n, ((de_casteljau_levels points t).getD r []).length =
        ((de_casteljau_levels points t).getD (r + 1) []).length + 1) ∧
      ∃ p : Point, (de_casteljau_levels points t).getLast? = some [p] ∧
        de_casteljau points t = some p := by
  have hn : points.length - 1 = n := by omega
  refine ⟨?_, ?_, ?_, ?_⟩
  · rw [de_casteljau_levels, levelsAux_length, hn]
  · rw [de_casteljau_levels, levelsAux_head]
  · intro r hr
    rw [de_casteljau_levels, hn, levelsAux_getD t n r points (by omega),
      levelsAux_getD t n (r + 1) points (by omega), iterate_step_length,
      iterate_step_length]
    omega
  · have hlen : ((deCasteljauStep t)^[n] points).length = 1 := by
      rw [iterate_step_length]; omega
    obtain ⟨p, hp⟩ := List.length_eq_one.mp hlen
    refine ⟨p, ?_, ?_⟩
    · rw [de_casteljau_levels, hn, levelsAux_getLast, hp]
    · rw [de_casteljau, hn, hp]; rfl

/-- Witness for C3: the quadratic `[(0,0),(2,2),(4,0)]` at `t = 1/2`. -/
theorem level_trace_witness :
    (de_casteljau_levels [(⟨0, 0⟩ : Point), ⟨2, 2⟩, ⟨4, 0⟩] (1/2)).length = 3 ∧
      (de_casteljau_levels [(⟨0, 0⟩ : Point), ⟨2, 2⟩, ⟨4, 0⟩] (1/2)).head? =
        some [⟨0, 0⟩, ⟨2, 2⟩, ⟨4, 0⟩] :=
  ⟨(level_trace [⟨0, 0⟩, ⟨2, 2⟩, ⟨4, 0⟩] (1/2) 2 (by rfl)).1,
   (level_trace [⟨0, 0⟩, ⟨2, 2⟩, ⟨4, 0⟩] (1/2) 2 (by rfl)).2.1⟩

/-! ## Bernstein basis lemmas: the iterative `binom` equals the binomial
coefficient, and `bern` satisfies the de Casteljau recurrence -/

theorem binom_zero (n : ℕ) : binom n 0 = 1 := rfl

theorem binom_succ (n k : ℕ) :
    binom n (k + 1) = binom n k * ((n : ℚ) + 1 - ((k : ℚ) + 1)) / ((k : ℚ) + 1) := by
  unfold binom
  rw [List.range_succ, List.foldl_append, List.foldl_cons, List.foldl_nil]

theorem binom_eq_choose (n : ℕ) : ∀ k : ℕ, binom n k = (n.choose k : ℚ) := by
  intro k
  induction k with
  | zero => simp [binom_zero]
  | succ k ih =>
    rw [binom_succ, ih]
    rcases le_or_lt k n with hk | hk
    · have hrecq : (n.choose (k + 1) : ℚ) * ((k : ℚ) + 1) =
          (n.choose k : ℚ) * ((n : ℚ) - (k : ℚ)) := by
        have h' : ((n.choose (k + 1) * (k + 1) : ℕ) : ℚ) = ((n.choose k * (n - k) : ℕ) : ℚ) := by
          exact_mod_cast congrArg (fun m : ℕ => (m : ℚ)) (Nat.choose_succ_right_eq n k)
        push_cast [Nat.cast_sub hk] at h'
        exact h'
      have hk1 : ((k : ℚ) + 1) ≠ 0 := by positivity
      rw [div_eq_iff hk1]
      linear_combination -hrecq
    · have h1 : n.choose k = 0 := Nat.choose_eq_zero_of_lt hk
      have h2 : n.choose (k + 1) = 0 := Nat.choose_eq_zero_of_lt (by omega)
      rw [h1, h2]
      simp

theorem bern_eq (n i : ℕ) (t : ℚ) :
    bern n i t = (n.choose i : ℚ) * t ^ i * (1 - t) ^ (n - i) := by
  rw [bern, binom_eq_choose]

theorem bern_of_lt (n i : ℕ) (t : ℚ) (h : n < i) : bern n i t = 0 := by
  rw [bern_eq, Nat.choose_eq_zero_of_lt h]
  simp

theorem bern_zero_left (m : ℕ) (t : ℚ) :
    bern (m + 1) 0 t = (1 - t) * bern m 0 t := by
  rw [bern_eq, bern_eq]
  simp only [Nat.choose_zero_right, Nat.cast_one, pow_zero, Nat.sub_zero]
  ring

theorem bern_succ_succ (m i : ℕ) (t : ℚ) (h : i ≤ m) :
    bern (m + 1) (i + 1) t = (1 - t) * bern m (i + 1) t + t * bern m i t := by
  rcases lt_or_eq_of_le h with hlt | rfl
  · have h1 : m + 1 - (i + 1) = m - i := by omega
    have h2 : m - (i + 1) + 1 = m - i := by omega
    rw [bern_eq, bern_eq, bern_eq, Nat.choose_succ_succ, h1]
    push_cast
    rw [← h2, pow_succ]
    ring
  · rw [bern_of_lt i (i + 1) t (by omega), bern_eq, bern_eq]
    simp only [Nat.choose_self, Nat.cast_one, Nat.sub_self, pow_zero]
    ring

/-- The key redistribution step: applying one de Casteljau round to the
coefficients of a degree-`m` Bernstein sum yields the degree-`m+1` sum. -/
theorem bern_sum_step (t : ℚ) (m : ℕ) (g : ℕ → ℚ) :
    ∑ i ∈ Finset.range (m + 1), bern m i t * ((1 - t) * g i + t * g (i + 1)) =
      ∑ i ∈ Finset.range (m + 2), bern (m + 1) i t * g i := by
  have hL : ∑ i ∈ Finset.range (m + 1), bern m i t * ((1 - t) * g i + t * g (i + 1)) =
      (1 - t) * ∑ i ∈ Finset.range (m + 1), bern m i t * g i +
        t * ∑ i ∈ Finset.range (m + 1), bern m i t * g (i + 1) := by
    rw [Finset.mul_sum, Finset.mul_sum, ← Finset.sum_add_distrib]
    exact Finset.sum_congr rfl fun i _ => by ring
  have hshift : ∑ i ∈ Finset.range (m + 1), bern m i t * g i =
      ∑ i ∈ Finset.range (m + 1), bern m (i + 1) t * g (i + 1) + bern m 0 t * g 0 := by
    have h1 : ∑ i ∈ Finset.range (m + 2), bern m i t * g i =
        ∑ i ∈ Finset.range (m + 1), bern m i t * g i + bern m (m + 1) t * g (m + 1) :=
      Finset.sum_range_succ _ _
    have h2 : ∑ i ∈ Finset.range (m + 2), bern m i t * g i =
        ∑ i ∈ Finset.range (m + 1), bern m (i + 1) t * g (i + 1) + bern m 0 t * g 0 :=
      Finset.sum_range_succ' _ _
    rw [bern_of_lt m (m + 1) t (by omega)] at h1
    simp only [zero_mul, add_zero] at h1
    rw [← h1, h2]
  have hR : ∑ i ∈ Finset.range (m + 2), bern (m + 1) i t * g i =
      ∑ i ∈ Finset.range (m + 1), bern (m + 1) (i + 1) t * g (i + 1) +
        bern (m + 1) 0 t * g 0 :=
    Finset.sum_range_succ' _ _
  have hrec2 : ∑ i ∈ Finset.range (m + 1), bern (m + 1) (i + 1) t * g (i + 1) =
      (1 - t) * ∑ i ∈ Finset.range (m + 1), bern m (i + 1) t * g (i + 1) +
        t * ∑ i ∈ Finset.range (m + 1), bern m i t * g (i + 1) := by
    rw [Finset.mul_sum, Finset.mul_sum, ← Finset.sum_add_distrib]
    refine Finset.sum_congr rfl fun i hi => ?_
    rw [bern_succ_succ m i t (Nat.lt_succ_iff.mp (Finset.mem_range.mp hi))]
    ring
  rw [hL, hshift, hR, hrec2, bern_zero_left]
  ring

/-! ## Closed form of `de_casteljau`: the Bernstein sum.
Worked componentwise: `sstep` is the scalar shadow of `deCasteljauStep`. -/

theorem sstep_length (t : ℚ) : ∀ l : List ℚ, (sstep t l).length = l.length - 1
  | [] => rfl
  | [_] => rfl
  | a :: b :: rest => by
    simp only [sstep, List.length_cons, sstep_length t (b :: rest)]
    omega

theorem sstep_getD (t : ℚ) : ∀ (l : List ℚ) (i : ℕ), i + 1 < l.length →
    (sstep t l).getD i 0 = (1 - t) * l.getD i 0 + t * l.getD (i + 1) 0
  | [], i, h => by simp at h
  | [_], i, h => by simp at h
  | a :: b :: rest, 0, _ => rfl
  | a :: b :: rest, i + 1, h => by
    simp only [sstep, List.getD_cons_succ]
    exact sstep_getD t (b :: rest) i (by simp at h ⊢; omega)

theorem deCasteljauStep_map_x (t : ℚ) :
    ∀ l : List Point, (deCasteljauStep t l).map Point.x = sstep t (l.map Point.x)
  | [] => rfl
  | [_] => rfl
  | a :: b :: rest => by
    simp only [deCasteljauStep, List.map_cons, sstep]
    exact congrArg _ (deCasteljauStep_map_x t (b :: rest))

theorem deCasteljauStep_map_y (t : ℚ) :
    ∀ l : List Point, (deCasteljauStep t l).map Point.y = sstep t (l.map Point.y)
  | [] => rfl
  | [_] => rfl
  | a :: b :: rest => by
    simp only [deCasteljauStep, List.map_cons, sstep]
    exact congrArg _ (deCasteljauStep_map_y t (b :: rest))

theorem iterate_step_map_x (t : ℚ) (k : ℕ) (l : List Point) :
    ((deCasteljauStep t)^[k] l).map Point.x = (sstep t)^[k] (l.map Point.x) := by
  induction k generalizing l with
  | zero => rfl
  | succ k ih =>
    rw [Function.iterate_succ_apply, Function.iterate_succ_apply, ih,
      deCasteljauStep_map_x]

theorem iterate_step_map_y (t : ℚ) (k : ℕ) (l : List Point) :
    ((deCasteljauStep t)^[k] l).map Point.y = (sstep t)^[k] (l.map Point.y) := by
  induction k generalizing l with
  | zero => rfl
  | succ k ih =>
    rw [Function.iterate_succ_apply, Function.iterate_succ_apply, ih,
      deCasteljauStep_map_y]

theorem sstep_iterate_bern (t : ℚ) : ∀ (m : ℕ) (l : List ℚ), l.length = m + 1 →
    (sstep t)^[m] l = [∑ i ∈ Finset.range (m + 1), bern m i t * l.getD i 0] := by
  intro m
  induction m with
  | zero =>
    intro l hl
    obtain ⟨a, rfl⟩ := List.length_eq_one.mp hl
    simp [bern, binom_zero]
  | succ m ih =>
    intro l hl
    rw [Function.iterate_succ_apply, ih (sstep t l) (by rw [sstep_length]; omega)]
    congr 1
    have hterm : ∑ i ∈ Finset.range (m + 1), bern m i t * (sstep t l).getD i 0 =
        ∑ i ∈ Finset.range (m + 1),
          bern m i t * ((1 - t) * l.getD i 0 + t * l.getD (i + 1) 0) := by
      refine Finset.sum_congr rfl fun i hi => ?_
      rw [sstep_getD t l i (by have := Finset.mem_range.mp hi; omega)]
    rw [hterm, bern_sum_step]

theorem getD_map_x (points : List Point) (i : ℕ) :
    (points.map Point.x).getD i 0 = (ptD points i).x := by
  induction points generalizing i with
  | nil => simp [ptD]
  | cons p rest ih =>
    cases i with
    | zero => rfl
    | succ i => simpa [ptD] using ih i

theorem getD_map_y (points : List Point) (i : ℕ) :
    (points.map Point.y).getD i 0 = (ptD points i).y := by
  induction points generalizing i with
  | nil => simp [ptD]
  | cons p rest ih =>
    cases i with
    | zero => rfl
    | succ i => simpa [ptD] using ih i

/-- `de_casteljau` computes the Bernstein sum of the control points:
`B(t) = Σ_i bern(n, i, t) · pᵢ` for a segment of `n + 1` points. -/
theorem de_casteljau_eq_bern_sum (points : List Point) (t : ℚ) (n : ℕ)
    (h : points.length = n + 1) :
    de_casteljau points t =
      some ⟨∑ i ∈ Finset.range (n + 1), bern n i t * (ptD points i).x,
            ∑ i ∈ Finset.range (n + 1), bern n i t * (ptD points i).y⟩ := by
  have hn : points.length - 1 = n := by omega
  have hlen : ((deCasteljauStep t)^[n] points).length = 1 := by
    rw [iterate_step_length]; omega
  obtain ⟨q, hq⟩ := List.length_eq_one.mp hlen
  have hx := iterate_step_map_x t n points
  have hy := iterate_step_map_y t n points
  rw [hq, sstep_iterate_bern t n (points.map Point.x) (by simp [h])] at hx
  rw [hq, sstep_iterate_bern t n (points.map Point.y) (by simp [h])] at hy
  simp only [List.map_cons, List.map_nil, List.cons.injEq, and_true] at hx hy
  rw [de_casteljau, hn, hq]
  have hqx : q.x = ∑ i ∈ Finset.range (n + 1), bern n i t * (ptD points i).x := by
    rw [hx]
    exact Finset.sum_congr rfl fun i _ => by rw [getD_map_x]
  have hqy : q.y = ∑ i ∈ Finset.range (n + 1), bern n i t * (ptD points i).y := by
    rw [hy]
    exact Finset.sum_congr rfl fun i _ => by rw [getD_map_y]
  simp only [List.head?_cons, Option.some.injEq]
  cases q
  simp only at hqx hqy
  rw [hqx, hqy]

/-! ## C2: the analytic derivative equals de Casteljau on the hodograph -/

theorem hodograph_length (points : List Point) :
    (hodograph_control_points points).length = points.length - 1 := by
  simp only [hodograph_control_points, List.length_zipWith, List.length_tail]
  omega

theorem hodograph_get (points : List Point) (i : ℕ) (h : i + 1 < points.length) :
    ptD (hodograph_control_points points) i =
      ⟨((points.length - 1 : ℕ) : ℚ) * ((ptD points (i + 1)).x - (ptD points i).x),
       ((points.length - 1 : ℕ) : ℚ) * ((ptD points (i + 1)).y - (ptD points i).y)⟩ := by
  have h1 : i < points.length := by omega
  simp only [ptD, hodograph_control_points, List.getD_eq_getElem?_getD, List.getElem?_zipWith,
    List.getElem?_tail, List.getElem?_eq_getElem h1, List.getElem?_eq_getElem h,
    Option.getD_some]

/-- **C2.** For every segment with at least 2 control points and every
rational `t`, the Bernstein-sum `derivative(segment, t)` agrees with
de Casteljau evaluation of the hodograph control polygon,
`evaluate(hodograph_control_points(segment), t)` — exactly, in the exact
arithmetic of the embedding. -/
theorem derivative_consistency (points : List Point) (t : ℚ) (h : 2 ≤ points.length) :
    de_casteljau (hodograph_control_points points) t = some (derivative points t) := by
  have hhl : (hodograph_control_points points).length = (points.length - 1 - 1) + 1 := by
    rw [hodograph_length]; omega
  rw [de_casteljau_eq_bern_sum _ t _ hhl]
  refine congrArg some ?_
  have hr : points.length - 1 - 1 + 1 = points.length - 1 := by omega
  simp only [derivative, if_neg (show ¬points.length ≤ 1 by omega)]
  rw [hr, Point.mk.injEq]
  constructor
  all_goals
    refine Finset.sum_congr rfl fun i hi => ?_
    have hi' : i + 1 < points.length := by
      have := Finset.mem_range.mp hi; omega
    rw [hodograph_get points i hi']
    ring

/-- Witness for C2: the quadratic `[(0,0),(1,3),(5,0)]` at `t = 1/3`. -/
theorem derivative_consistency_witness :
    de_casteljau (hodograph_control_points [(⟨0, 0⟩ : Point), ⟨1, 3⟩, ⟨5, 0⟩]) (1/3) =
      some (derivative [(⟨0, 0⟩ : Point), ⟨1, 3⟩, ⟨5, 0⟩] (1/3)) :=
  derivative_consistency [⟨0, 0⟩, ⟨1, 3⟩, ⟨5, 0⟩] (1/3) (by simp)

/-! ## C8: curvature of a degenerate (colinear) segment -/

theorem ptD_mem (l : List Point) (i : ℕ) (h : i < l.length) : ptD l i ∈ l := by
  rw [ptD, List.getD_eq_getElem _ _ h]
  exact List.getElem_mem h

/-- A linear functional vanishing on all control points (shifted to a
common value `c`) annihilates the first derivative. -/
theorem derivative_on_line (points : List Point) (t : ℚ) (a b c : ℚ)
    (hline : ∀ p ∈ points, a * p.x + b * p.y = c) :
    a * (derivative points t).x + b * (derivative points t).y = 0 := by
  by_cases hlen : points.length ≤ 1
  · simp [derivative, hlen]
  · simp only [derivative, if_neg hlen]
    rw [Finset.mul_sum, Finset.mul_sum, ← Finset.sum_add_distrib]
    refine Finset.sum_eq_zero fun i hi => ?_
    have hi1 : i + 1 < points.length := by
      have := Finset.mem_range.mp hi; omega
    have h0 := hline _ (ptD_mem points i (by omega))
    have h1 := hline _ (ptD_mem points (i + 1) hi1)
    linear_combination ((points.length - 1 : ℕ) : ℚ) * bern (points.length - 1 - 1) i t * (h1 - h0)

/-- The same functional annihilates the second derivative. -/
theorem second_derivative_on_line (points : List Point) (t : ℚ) (a b c : ℚ)
    (hline : ∀ p ∈ points, a * p.x + b * p.y = c) :
    a * (second_derivative points t).x + b * (second_derivative points t).y = 0 := by
  by_cases hlen : points.length ≤ 2
  · simp [second_derivative, hlen]
  · simp only [second_derivative, if_neg hlen]
    rw [Finset.mul_sum, Finset.mul_sum, ← Finset.sum_add_distrib]
    refine Finset.sum_eq_zero fun i hi => ?_
    have hi2 : i + 2 < points.length := by
      have := Finset.mem_range.mp hi; omega
    have h0 := hline _ (ptD_mem points i (by omega))
    have h1 := hline _ (ptD_mem points (i + 1) (by omega))
    have h2 := hline _ (ptD_mem points (i + 2) hi2)
    linear_combination ((points.length - 1 : ℕ) : ℚ) * (((points.length - 1 : ℕ) : ℚ) - 1) *
      bern (points.length - 1 - 2) i t * (h2 - 2 * h1 + h0)

theorem cross_of_parallel (a b dx dy ddx ddy : ℚ) (hab : a ≠ 0 ∨ b ≠ 0)
    (hd : a * dx + b * dy = 0) (hdd : a * ddx + b * ddy = 0) :
    dx * ddy - dy * ddx = 0 := by
  rcases hab with ha | hb
  · have : a * (dx * ddy - dy * ddx) = 0 := by linear_combination ddy * hd - dy * hdd
    exact (mul_eq_zero.mp this).resolve_left ha
  · have : b * (dx * ddy - dy * ddx) = 0 := by linear_combination -ddx * hd + dx * hdd
    exact (mul_eq_zero.mp this).resolve_left hb

/-- **C8.** For every segment whose control points all lie on one line
`a·x + b·y = c` (with `(a, b) ≠ (0, 0)`) and every `t`,
`curvature(segment, t)` is exactly `0`: the cross product of the parallel
first and second derivatives vanishes, so both the `|d| < 1e-9` guard
branch and the division branch return `0` (and no near-zero division ever
contributes a nonzero value). -/
theorem curvature_colinear (points : List Point) (t : ℚ)
    (h : ∃ a b c : ℚ, (a ≠ 0 ∨ b ≠ 0) ∧ ∀ p ∈ points, a * p.x + b * p.y = c) :
    curvature_at points t = 0 := by
  obtain ⟨a, b, c, hab, hline⟩ := h
  have hcross : (derivative points t).x * (second_derivative points t).y -
      (derivative points t).y * (second_derivative points t).x = 0 :=
    cross_of_parallel a b _ _ _ _ hab (derivative_on_line points t a b c hline)
      (second_derivative_on_line points t a b c hline)
  simp only [curvature_at]
  split
  · rfl
  · rw [hcross]
    simp

/-- Witness for C8: the straight segment `[(0,0),(1,1),(2,2)]` at
`t = 1/2`, on the line `x − y = 0`. -/
theorem curvature_colinear_witness :
    curvature_at [(⟨0, 0⟩ : Point), ⟨1, 1⟩, ⟨2, 2⟩] (1/2) = 0 :=
  curvature_colinear [⟨0, 0⟩, ⟨1, 1⟩, ⟨2, 2⟩] (1/2)
    ⟨1, -1, 0, Or.inl one_ne_zero, by
      intro p hp
      simp only [List.mem_cons, List.not_mem_nil, or_false] at hp
      rcases hp with rfl | rfl | rfl <;> norm_num⟩

/-! ## C9: the collection never becomes empty -/

theorem applyOp_ne_nil (segments : List (List Point)) (op : CollectionOp)
    (h : segments ≠ []) : applyOp segments op ≠ [] := by
  cases op with
  | removeSeg =>
    simp only [applyOp, remove_segment]
    split
    · have : (segments.dropLast).length = segments.length - 1 := segments.length_dropLast
      intro hnil
      rw [hnil] at this
      simp at this
      omega
    · exact h
  | reset => simp [applyOp, reset_collection]

/-- **C9.** `remove_segment` pops the last segment but refuses (no-op, not
an error) when a single segment remains, `reset` installs the single empty
segment, and hence no sequence of these operations starting from a
nonempty collection ever empties it. -/
theorem collection_never_empty (segments : List (List Point)) (ops : List CollectionOp)
    (h : segments ≠ []) :
    (segments.length = 1 → remove_segment segments = segments) ∧
      (1 < segments.length → remove_segment segments = segments.dropLast ∧
        (remove_segment segments).length = segments.length - 1) ∧
      reset_collection = [[]] ∧
      applyOps segments ops ≠ [] := by
  refine ⟨?_, ?_, rfl, ?_⟩
  · intro h1
    simp [remove_segment, h1]
  · intro h1
    refine ⟨by simp [remove_segment, h1], ?_⟩
    simp [remove_segment, h1]
  · induction ops generalizing segments with
    | nil => exact h
    | cons op rest ih =>
      exact ih (applyOp segments op) (applyOp_ne_nil segments op h)

/-- Witness for C9: `[[p]]` survives remove, reset, remove. -/
theorem collection_never_empty_witness :
    applyOps [[(⟨0, 0⟩ : Point)]]
      [CollectionOp.removeSeg, CollectionOp.reset, CollectionOp.removeSeg] ≠ [] :=
  (collection_never_empty [[⟨0, 0⟩]]
    [CollectionOp.removeSeg, CollectionOp.reset, CollectionOp.removeSeg] (by simp)).2.2.2

/-! ## C10: the collection-level total length -/

theorem de_casteljau_isSome (seg : List Point) (hs : seg ≠ []) (t : ℚ) :
    ∃ q, de_casteljau seg t = some q := by
  have hlen : seg.length = (seg.length - 1) + 1 := by
    have := List.length_pos.mpr hs; omega
  exact ⟨_, de_casteljau_eq_bern_sum seg t (seg.length - 1) hlen⟩

theorem approximate_length_of_ne_nil (seg : List Point) (hs : seg ≠ []) (steps : ℕ) :
    approximate_length seg steps =
      some (∑ i ∈ Finset.range steps,
        chordR (evalPt seg (((i : ℚ) + 1) / (steps : ℚ))) (evalPt seg ((i : ℚ) / (steps : ℚ)))) := by
  obtain ⟨q, hq⟩ := de_casteljau_isSome seg hs 0
  rw [approximate_length, hq]

/-- On a single-point segment every sample is that point, so the polyline
length is `some 0` (no error). -/
theorem approximate_length_single (p : Point) (steps : ℕ) :
    approximate_length [p] steps = some 0 := by
  have h1 : ∀ t : ℚ, de_casteljau [p] t = some p := fun _ => rfl
  rw [approximate_length_of_ne_nil [p] (by simp) steps]
  refine congrArg some ?_
  refine Finset.sum_eq_zero fun i _ => ?_
  simp [evalPt, h1, chordR, hypotR]

theorem mapM_approx (l : List (List Point)) (hl : ∀ s ∈ l, s ≠ []) :
    l.mapM (fun s => approximate_length s 200) =
      some (l.map (fun s => (approximate_length s 200).getD 0)) := by
  induction l with
  | nil => rfl
  | cons s rest ih =>
    obtain ⟨q, hq⟩ := de_casteljau_isSome s (hl s (by simp)) 0
    have hs : approximate_length s 200 =
        some ((approximate_length s 200).getD 0) := by
      rw [approximate_length_of_ne_nil s (hl s (by simp)) 200]
      rfl
    rw [List.mapM_cons, hs, ih (fun x hx => hl x (by simp [hx]))]
    rfl

/-- **C10.** The collection-level total length is always defined (the
arc-length path never raises): it equals the sum of `approximate_length`
over exactly the segments with ≥ 2 points, and a single-point segment
would in any case contribute `some 0`.  (Segments with 0 or 1 points are
filtered out before `approximate_length` is called, which is what keeps
the empty-segment `IndexError` of `de_casteljau` unreachable.) -/
theorem total_length_spec (segments : List (List Point)) :
    total_length segments =
      some (((segments.filter (fun s => 2 ≤ s.length)).map
        (fun s => (approximate_length s 200).getD 0)).sum) ∧
      ∀ p : Point, approximate_length [p] 200 = some 0 := by
  constructor
  · have hl : ∀ s ∈ segments.filter (fun s => 2 ≤ s.length), s ≠ [] := by
      intro s hsf
      have := List.of_mem_filter hsf
      simp only [decide_eq_true_eq] at this
      intro hnil
      rw [hnil] at this
      simp at this
    rw [total_length, mapM_approx _ hl]
    rfl
  · exact fun p => approximate_length_single p 200

/-- Witness for C10 at a mixed concrete collection (an empty, a
single-point and a two-point segment). -/
theorem total_length_spec_witness :
    total_length [[], [(⟨5, 5⟩ : Point)], [⟨0, 0⟩, ⟨3, 4⟩]] =
      some ((([[], [(⟨5, 5⟩ : Point)], [⟨0, 0⟩, ⟨3, 4⟩]].filter
        (fun s => 2 ≤ s.length)).map
          (fun s => (approximate_length s 200).getD 0)).sum) :=
  (total_length_spec [[], [⟨5, 5⟩], [⟨0, 0⟩, ⟨3, 4⟩]]).1

/-! ## Bridges between squared-distance comparisons and the source's
`math.hypot` comparisons -/

theorem dist2_nonneg (p : Point) (x y : ℚ) : 0 ≤ dist2 p x y := by
  unfold dist2
  positivity

theorem rdist_le_rdist_iff (p q : Point) (x y : ℚ) :
    rdist p x y ≤ rdist q x y ↔ dist2 p x y ≤ dist2 q x y := by
  rw [rdist, rdist, Real.sqrt_le_sqrt_iff (by exact_mod_cast dist2_nonneg q x y),
    Rat.cast_le]

theorem rdist_lt_rdist_iff (p q : Point) (x y : ℚ) :
    rdist p x y < rdist q x y ↔ dist2 p x y < dist2 q x y := by
  rw [rdist, rdist, Real.sqrt_lt_sqrt_iff (by exact_mod_cast dist2_nonneg p x y),
    Rat.cast_lt]

theorem rdist_le_hitR_iff (p : Point) (x y : ℚ) :
    rdist p x y ≤ (10 : ℝ) ↔ dist2 p x y ≤ HIT_R ^ 2 := by
  rw [rdist, Real.sqrt_le_left (by norm_num), HIT_R]
  constructor
  · intro h; exact_mod_cast h
  · intro h; exact_mod_cast h

theorem rdist_lt_hitR_iff (p : Point) (x y : ℚ) :
    rdist p x y < (10 : ℝ) ↔ dist2 p x y < HIT_R ^ 2 := by
  rw [rdist, Real.sqrt_lt' (by norm_num), HIT_R]
  constructor
  · intro h; exact_mod_cast h
  · intro h; exact_mod_cast h

/-! ## The stable first-minimum scan

`foldl minUpd` is the source's `if d < best_d: best_d, best = d, tag`
loop.  Its result is either the untouched start state (nothing beat the
incoming best) or the *last* pair that strictly improved the running
minimum — equivalently the first pair attaining the final minimum:
everything before it is strictly larger, everything after it no smaller. -/

theorem ltOpt_none (d : ℚ) : ltOpt d none = true := rfl

theorem ltOpt_some (d b : ℚ) : ltOpt d (some b) = decide (d < b) := rfl

theorem foldl_minUpd_spec : ∀ (L : List (ℕ × ℚ)) (st : ℕ × Option ℚ),
    (L.foldl minUpd st = st ∧ ∀ p ∈ L, ltOpt p.2 st.2 = false) ∨
    (∃ L1 w L2, L = L1 ++ w :: L2 ∧
      L.foldl minUpd st = (w.1, some w.2) ∧
      ltOpt w.2 st.2 = true ∧
      (∀ q ∈ L1, w.2 < q.2) ∧
      (∀ q ∈ L2, w.2 ≤ q.2)) := by
  intro L
  induction L with
  | nil => intro st; exact Or.inl ⟨rfl, by simp⟩
  | cons q rest ih =>
    intro st
    rw [List.foldl_cons]
    by_cases hq : ltOpt q.2 st.2 = true
    · have hupd : minUpd st q = (q.1, some q.2) := by simp [minUpd, hq]
      rw [hupd]
      rcases ih (q.1, some q.2) with ⟨heq, hall⟩ | ⟨R1, w, R2, hsplit, hres, hlt, h1, h2⟩
      · refine Or.inr ⟨[], q, rest, by simp, heq, hq, by simp, ?_⟩
        intro p hp
        have := hall p hp
        simpa [ltOpt_some, decide_eq_false_iff_not, not_lt] using this
      · have hwq : w.2 < q.2 := by
          simpa [ltOpt_some, decide_eq_true_eq] using hlt
        refine Or.inr ⟨q :: R1, w, R2, by rw [hsplit]; rfl, hres, ?_, ?_, h2⟩
        · cases hst : st.2 with
          | none => rfl
          | some b =>
            rw [hst] at hq
            have hqb : q.2 < b := by simpa [ltOpt_some, decide_eq_true_eq] using hq
            simp [ltOpt_some, decide_eq_true_eq]
            linarith
        · intro p hp
          rcases List.mem_cons.mp hp with rfl | hp'
          · exact hwq
          · exact h1 p hp'
    · have hupd : minUpd st q = st := by simp [minUpd, hq]
      rw [hupd]
      rcases ih st with ⟨heq, hall⟩ | ⟨R1, w, R2, hsplit, hres, hlt, h1, h2⟩
      · refine Or.inl ⟨heq, ?_⟩
        intro p hp
        rcases List.mem_cons.mp hp with rfl | hp'
        · exact eq_false_of_ne_true hq
        · exact hall p hp'
      · refine Or.inr ⟨q :: R1, w, R2, by rw [hsplit]; rfl, hres, hlt, ?_, h2⟩
        intro p hp
        rcases List.mem_cons.mp hp with rfl | hp'
        · cases hst : st.2 with
          | none => rw [hst] at hq; exact absurd (ltOpt_none p.2) hq
          | some b =>
            rw [hst] at hq hlt
            have hwb : w.2 < b := by simpa [ltOpt_some, decide_eq_true_eq] using hlt
            have hbp : b ≤ p.2 := by
              simpa [ltOpt_some, decide_eq_false_iff_not, not_lt] using hq
            linarith
        · exact h1 p hp'

/-! ## C6: `_find_closest_point` -/

theorem fcpKeys_length (segments : List (List Point)) (x y : ℚ) :
    (fcpKeys segments x y).length = (scanPts segments).length := by
  simp [fcpKeys]

theorem fcpKeys_getElem? (segments : List (List Point)) (x y : ℚ) (j : ℕ)
    (hj : j < (scanPts segments).length) :
    (fcpKeys segments x y)[j]? = some (j, dist2 (ptD (scanPts segments) j) x y) := by
  rw [fcpKeys, List.getElem?_map, List.enum_eq_enumFrom, List.getElem?_enumFrom,
    List.getElem?_eq_getElem hj]
  simp [ptD, List.getElem?_eq_getElem hj]

theorem find_closest_point_eq (segments : List (List Point)) (x y : ℚ) :
    find_closest_point segments x y =
      match ((fcpKeys segments x y).foldl minUpd (0, none)).2 with
      | none => none
      | some m => if m ≤ HIT_R ^ 2 then
          some (ptD (scanPts segments) ((fcpKeys segments x y).foldl minUpd (0, none)).1)
        else none := rfl

/-- **C6.** `nearest_control_point` returns `none` iff no control point is
within Euclidean distance `HIT_R = 10` of the query; when it returns a
point, that point attains the minimal distance, is within the radius, and
sits at a scan position strictly earlier than every other minimiser (first
minimum wins, segment order then point order). -/
theorem nearest_control_point_spec (segments : List (List Point)) (x y : ℚ) :
    (find_closest_point segments x y = none ↔
      ∀ p ∈ scanPts segments, ¬(rdist p x y ≤ (10 : ℝ))) ∧
    (∀ q : Point, find_closest_point segments x y = some q →
      q ∈ scanPts segments ∧ rdist q x y ≤ (10 : ℝ) ∧
      (∀ p ∈ scanPts segments, rdist q x y ≤ rdist p x y) ∧
      ∃ i, ∃ _ : i < (scanPts segments).length, ptD (scanPts segments) i = q ∧
        ∀ j < i, rdist q x y < rdist (ptD (scanPts segments) j) x y) := by
  rcases foldl_minUpd_spec (fcpKeys segments x y) (0, none) with
    ⟨heq, hall⟩ | ⟨L1, w, L2, hsplit, hres, hlt, h1, h2⟩
  · -- no candidate improved on `inf`: the key list, hence the point list,
    -- is empty
    have hnil : fcpKeys segments x y = [] := by
      cases hfk : fcpKeys segments x y with
      | nil => rfl
      | cons a as =>
        have := hall a (by rw [hfk]; simp)
        rw [ltOpt_none] at this
        simp at this
    have hpts : scanPts segments = [] := by
      have := fcpKeys_length segments x y
      rw [hnil] at this
      exact List.length_eq_zero.mp this.symm
    have hval : find_closest_point segments x y = none := by
      rw [find_closest_point_eq, hnil]
      rfl
    refine ⟨by simp [hval, hpts], ?_⟩
    intro q hq
    rw [hval] at hq
    exact absurd hq (by simp)
  · -- `w` is the first minimum of the scan
    have hLlen := fcpKeys_length segments x y
    have hi : L1.length < (fcpKeys segments x y).length := by
      rw [hsplit]; simp
    have hip : L1.length < (scanPts segments).length := by omega
    have hw : w = (L1.length, dist2 (ptD (scanPts segments) L1.length) x y) := by
      have hg : (fcpKeys segments x y)[L1.length]? = some w := by
        rw [hsplit, List.getElem?_append_right (le_refl L1.length)]
        simp
      rw [fcpKeys_getElem? segments x y L1.length hip] at hg
      exact (Option.some.inj hg).symm
    have hmin : ∀ p ∈ scanPts segments, w.2 ≤ dist2 p x y := by
      intro p hp
      obtain ⟨j, hj, hjp⟩ := List.mem_iff_getElem.mp hp
      have hgj : (fcpKeys segments x y)[j]? = some (j, dist2 p x y) := by
        rw [fcpKeys_getElem? segments x y j hj, ptD, List.getD_eq_getElem _ _ hj, hjp]
      have hmem : (j, dist2 p x y) ∈ fcpKeys segments x y := List.getElem?_mem hgj
      rw [hsplit] at hmem
      rcases List.mem_append.mp hmem with hm1 | hm2
      · exact le_of_lt (h1 _ hm1)
      · rcases List.mem_cons.mp hm2 with hmw | hm2'
        · rw [← hmw]
        · exact h2 _ hm2'
    have hfirst : ∀ j < L1.length, w.2 < dist2 (ptD (scanPts segments) j) x y := by
      intro j hj
      have hjp : j < (scanPts segments).length := by omega
      have hgj := fcpKeys_getElem? segments x y j hjp
      rw [hsplit, List.getElem?_append_left hj] at hgj
      exact h1 _ (List.getElem?_mem hgj)
    have hw2 : w.2 = dist2 (ptD (scanPts segments) L1.length) x y := by rw [hw]
    have hval : find_closest_point segments x y =
        if w.2 ≤ HIT_R ^ 2 then some (ptD (scanPts segments) L1.length) else none := by
      rw [find_closest_point_eq, hres, hw]
    constructor
    · constructor
      · intro hnone p hp
        rw [hval] at hnone
        by_cases hcase : w.2 ≤ HIT_R ^ 2
        · rw [if_pos hcase] at hnone; exact absurd hnone (by simp)
        · rw [rdist_le_hitR_iff]
          intro hple
          exact hcase (le_trans (hmin p hp) hple)
      · intro hfar
        rw [hval, if_neg]
        intro hle
        exact (rdist_le_hitR_iff _ x y).not.mp
          (hfar _ (ptD_mem _ _ hip)) (by rw [← hw2]; exact hle)
    · intro q hq
      rw [hval] at hq
      by_cases hcase : w.2 ≤ HIT_R ^ 2
      · rw [if_pos hcase] at hq
        have hqe : ptD (scanPts segments) L1.length = q := by
          injection hq
        have hq2 : dist2 q x y = w.2 := by rw [← hqe, hw2]
        refine ⟨hqe ▸ ptD_mem _ _ hip, ?_, ?_, L1.length, hip, hqe, ?_⟩
        · rw [rdist_le_hitR_iff, hq2]; exact hcase
        · intro p hp
          rw [rdist_le_rdist_iff, hq2]
          exact hmin p hp
        · intro j hj
          rw [rdist_lt_rdist_iff, hq2]
          exact hfirst j hj
      · rw [if_neg hcase] at hq
        exact absurd hq (by simp)

/-- Witness for C6 with two coincident points `(5,5)` in distinct
segments: the returned point is the one at scan position 0. -/
theorem nearest_control_point_spec_witness :
    find_closest_point [[(⟨5, 5⟩ : Point)], [⟨5, 5⟩]] 5 5 = some ⟨5, 5⟩ →
      (⟨5, 5⟩ : Point) ∈ scanPts [[(⟨5, 5⟩ : Point)], [⟨5, 5⟩]] ∧
        rdist ⟨5, 5⟩ 5 5 ≤ (10 : ℝ) ∧
        (∀ p ∈ scanPts [[(⟨5, 5⟩ : Point)], [⟨5, 5⟩]], rdist ⟨5, 5⟩ 5 5 ≤ rdist p 5 5) ∧
        ∃ i, ∃ _ : i < (scanPts [[(⟨5, 5⟩ : Point)], [⟨5, 5⟩]]).length,
          ptD (scanPts [[(⟨5, 5⟩ : Point)], [⟨5, 5⟩]]) i = ⟨5, 5⟩ ∧
          ∀ j < i, rdist ⟨5, 5⟩ 5 5 < rdist (ptD (scanPts [[(⟨5, 5⟩ : Point)], [⟨5, 5⟩]]) j) 5 5 :=
  (nearest_control_point_spec [[⟨5, 5⟩], [⟨5, 5⟩]] 5 5).2 ⟨5, 5⟩

/-! ## C5: `_remove_point` -/

theorem withinHit_iff (x y : ℚ) (p : Point) :
    withinHit x y p ↔ dist2 p x y < HIT_R ^ 2 := rdist_lt_hitR_iff p x y

theorem findHit_none_iff (x y : ℚ) (seg : List Point) :
    findHit x y seg = none ↔ ∀ p ∈ seg, ¬withinHit x y p := by
  rw [findHit, List.findIdx?_eq_none_iff]
  constructor
  · intro h p hp
    rw [withinHit_iff]
    simpa using h p hp
  · intro h p hp
    have := h p hp
    rw [withinHit_iff] at this
    simpa using this

theorem findHit_some (x y : ℚ) (seg : List Point) (j : ℕ)
    (h : findHit x y seg = some j) :
    j < seg.length ∧ withinHit x y (ptD seg j) ∧
      ∀ j' < j, ¬withinHit x y (ptD seg j') := by
  rw [findHit, List.findIdx?_eq_some_iff_getElem] at h
  obtain ⟨hj, hpj, hprev⟩ := h
  refine ⟨hj, ?_, ?_⟩
  · rw [withinHit_iff, ptD, List.getD_eq_getElem _ _ hj]
    simpa using hpj
  · intro j' hj'
    rw [withinHit_iff, ptD, List.getD_eq_getElem _ _ (by omega)]
    simpa using hprev j' hj'

theorem remove_point_length (segments : List (List Point)) (x y : ℚ) :
    (remove_point segments x y).length = segments.length := by
  induction segments with
  | nil => rfl
  | cons seg rest ih =>
    by_cases h : seg.length ≤ 2
    · simp [remove_point, h, ih]
    · cases hf : findHit x y seg with
      | some j => simp [remove_point, h, hf]
      | none => simp [remove_point, h, hf, ih]

theorem remove_point_small (segments : List (List Point)) (x y : ℚ) :
    ∀ i, (segments.getD i []).length ≤ 2 →
      (remove_point segments x y).getD i [] = segments.getD i [] := by
  induction segments with
  | nil => intro i _; rfl
  | cons seg rest ih =>
    intro i hi
    by_cases h : seg.length ≤ 2
    · cases i with
      | zero => simp [remove_point, h]
      | succ i =>
        simp only [remove_point, if_pos h, List.getD_cons_succ] at *
        exact ih i hi
    · cases hf : findHit x y seg with
      | some j =>
        cases i with
        | zero => simp only [List.getD_cons_zero] at hi; omega
        | succ i => simp [remove_point, h, hf]
      | none =>
        cases i with
        | zero => simp [remove_point, h, hf]
        | succ i =>
          simp only [remove_point, if_neg h, hf, List.getD_cons_succ] at *
          exact ih i hi

theorem remove_point_guard (segments : List (List Point)) (x y : ℚ) :
    ∀ i, 2 ≤ (segments.getD i []).length →
      2 ≤ ((remove_point segments x y).getD i []).length := by
  induction segments with
  | nil => intro i hi; simp at hi
  | cons seg rest ih =>
    intro i hi
    by_cases h : seg.length ≤ 2
    · cases i with
      | zero => simpa [remove_point, h] using hi
      | succ i =>
        simp only [remove_point, if_pos h, List.getD_cons_succ] at *
        exact ih i hi
    · cases hf : findHit x y seg with
      | some j =>
        cases i with
        | zero =>
          have hj := (findHit_some x y seg j hf).1
          simp only [remove_point, if_neg h, hf, List.getD_cons_zero] at *
          rw [List.length_eraseIdx_of_lt hj]
          omega
        | succ i => simpa [remove_point, h, hf] using hi
      | none =>
        cases i with
        | zero => simpa [remove_point, h, hf] using hi
        | succ i =>
          simp only [remove_point, if_neg h, hf, List.getD_cons_succ] at *
          exact ih i hi

theorem remove_point_cases (segments : List (List Point)) (x y : ℚ) :
    (remove_point segments x y = segments ∧
      ∀ i < segments.length, ¬removable x y (segments.getD i [])) ∨
    (∃ i, i < segments.length ∧ removable x y (segments.getD i []) ∧
      (∀ i' < i, ¬removable x y (segments.getD i' [])) ∧
      ∃ j, j < (segments.getD i []).length ∧
        withinHit x y (ptD (segments.getD i []) j) ∧
        (∀ j' < j, ¬withinHit x y (ptD (segments.getD i []) j')) ∧
        remove_point segments x y =
          segments.set i ((segments.getD i []).eraseIdx j)) := by
  induction segments with
  | nil => exact Or.inl ⟨rfl, by simp⟩
  | cons seg rest ih =>
    by_cases h : seg.length ≤ 2
    · have h0 : ¬removable x y seg := fun hr => by
        have := hr.1; omega
      rcases ih with ⟨heq, hall⟩ | ⟨i, hi, hrem, hbefore, j, hj, hhit, hfirst, hres⟩
      · refine Or.inl ⟨?_, ?_⟩
        · simp [remove_point, h, heq]
        · intro i hi
          cases i with
          | zero => simpa using h0
          | succ i =>
            simp only [List.getD_cons_succ]
            exact hall i (by simpa using hi)
      · refine Or.inr ⟨i + 1, by simpa using hi, by simpa using hrem, ?_, j, hj, hhit, hfirst, ?_⟩
        · intro i' hi'
          cases i' with
          | zero => simpa using h0
          | succ i' =>
            simp only [List.getD_cons_succ]
            exact hbefore i' (by omega)
        · simp only [remove_point, if_pos h, List.getD_cons_succ, List.set_cons_succ]
          rw [hres]
    · cases hf : findHit x y seg with
      | some j =>
        obtain ⟨hj, hhit, hfirst⟩ := findHit_some x y seg j hf
        refine Or.inr ⟨0, by simp, ?_, by simp, j, ?_⟩
        · simp only [List.getD_cons_zero]
          exact ⟨by omega, ⟨ptD seg j, ptD_mem seg j hj, hhit⟩⟩
        · simp only [List.getD_cons_zero]
          refine ⟨hj, hhit, hfirst, ?_⟩
          simp [remove_point, h, hf]
      | none =>
        have h0 : ¬removable x y seg := by
          intro hr
          obtain ⟨p, hp, hph⟩ := hr.2
          exact (findHit_none_iff x y seg).mp hf p hp hph
        rcases ih with ⟨heq, hall⟩ | ⟨i, hi, hrem, hbefore, j, hj, hhit, hfirst, hres⟩
        · refine Or.inl ⟨?_, ?_⟩
          · simp [remove_point, h, hf, heq]
          · intro i hi
            cases i with
            | zero => simpa using h0
            | succ i =>
              simp only [List.getD_cons_succ]
              exact hall i (by simpa using hi)
        · refine Or.inr ⟨i + 1, by simpa using hi, by simpa using hrem, ?_, j, hj, hhit, hfirst, ?_⟩
          · intro i' hi'
            cases i' with
            | zero => simpa using h0
            | succ i' =>
              simp only [List.getD_cons_succ]
              exact hbefore i' (by omega)
          · simp only [remove_point, if_neg h, hf, List.getD_cons_succ, List.set_cons_succ]
            rw [hres]

/-- **C5.** `remove_point` removes exactly the first in-scan-order point
within the hit radius belonging to a segment of more than 2 points (if
any; otherwise it is the identity), leaves every segment of ≤ 2 points
untouched (a no-op, not an error), and never brings a segment below 2
points. -/
theorem remove_point_spec (segments : List (List Point)) (x y : ℚ) :
    (remove_point segments x y).length = segments.length ∧
    (∀ i, (segments.getD i []).length ≤ 2 →
      (remove_point segments x y).getD i [] = segments.getD i []) ∧
    (∀ i, 2 ≤ (segments.getD i []).length →
      2 ≤ ((remove_point segments x y).getD i []).length) ∧
    ((remove_point segments x y = segments ∧
      ∀ i < segments.length, ¬removable x y (segments.getD i [])) ∨
    (∃ i, i < segments.length ∧ removable x y (segments.getD i []) ∧
      (∀ i' < i, ¬removable x y (segments.getD i' [])) ∧
      ∃ j, j < (segments.getD i []).length ∧
        withinHit x y (ptD (segments.getD i []) j) ∧
        (∀ j' < j, ¬withinHit x y (ptD (segments.getD i []) j')) ∧
        remove_point segments x y =
          segments.set i ((segments.getD i []).eraseIdx j))) :=
  ⟨remove_point_length segments x y, remove_point_small segments x y,
   remove_point_guard segments x y, remove_point_cases segments x y⟩

/-- Witness for C5 on a 2-point segment: removing at a point of the
segment leaves it untouched (the removal guard). -/
theorem remove_point_spec_witness :
    (remove_point [[(⟨0, 0⟩ : Point), ⟨100, 0⟩]] 0 0).getD 0 [] =
      [(⟨0, 0⟩ : Point), ⟨100, 0⟩] :=
  (remove_point_spec [[⟨0, 0⟩, ⟨100, 0⟩]] 0 0).2.1 0 (by simp)

/-! ## C7: `approximate_length` under step refinement -/

theorem hypotR_cast (a b : ℚ) : hypotR a b = Real.sqrt ((a : ℝ) ^ 2 + (b : ℝ) ^ 2) := by
  rw [hypotR]
  push_cast
  ring_nf

theorem hypotR_eq_abs (dx dy : ℚ) :
    hypotR dx dy = Complex.abs ⟨(dx : ℝ), (dy : ℝ)⟩ := by
  rw [hypotR, Complex.abs_apply, Complex.normSq_mk]
  push_cast
  ring_nf

theorem chordR_self (p : Point) : chordR p p = 0 := by
  simp [chordR, hypotR]

theorem chordR_triangle (p q r : Point) : chordR p r ≤ chordR p q + chordR q r := by
  rw [chordR, chordR, chordR, hypotR_eq_abs, hypotR_eq_abs, hypotR_eq_abs]
  have h : (⟨((p.x - r.x : ℚ) : ℝ), ((p.y - r.y : ℚ) : ℝ)⟩ : ℂ) =
      (⟨((p.x - q.x : ℚ) : ℝ), ((p.y - q.y : ℚ) : ℝ)⟩ : ℂ) +
        (⟨((q.x - r.x : ℚ) : ℝ), ((q.y - r.y : ℚ) : ℝ)⟩ : ℂ) := by
    apply Complex.ext
    · simp only [Complex.add_re]
      push_cast
      ring
    · simp only [Complex.add_im]
      push_cast
      ring
  rw [h]
  exact Complex.abs.add_le _ _

theorem chord_le_polyline (P : ℕ → Point) (a : ℕ) :
    ∀ k : ℕ, chordR (P (a + k)) (P a) ≤
      ∑ r ∈ Finset.range k, chordR (P (a + r + 1)) (P (a + r)) := by
  intro k
  induction k with
  | zero => simp [chordR_self]
  | succ k ih =>
    rw [Finset.sum_range_succ]
    have htri : chordR (P (a + (k + 1))) (P a) ≤
        chordR (P (a + (k + 1))) (P (a + k)) + chordR (P (a + k)) (P a) :=
      chordR_triangle _ _ _
    have hcomm : chordR (P (a + (k + 1))) (P (a + k)) = chordR (P (a + k + 1)) (P (a + k)) := by
      rw [Nat.add_assoc]
    linarith [ih]

theorem polyline_coarse_le_fine (P : ℕ → Point) (k : ℕ) :
    ∀ m : ℕ, ∑ j ∈ Finset.range m, chordR (P ((j + 1) * k)) (P (j * k)) ≤
      ∑ i ∈ Finset.range (m * k), chordR (P (i + 1)) (P i) := by
  intro m
  induction m with
  | zero => simp
  | succ m ih =>
    rw [Finset.sum_range_succ, Nat.succ_mul, Finset.sum_range_add]
    have hchord : chordR (P (m * k + k)) (P (m * k)) ≤
        ∑ r ∈ Finset.range k, chordR (P (m * k + r + 1)) (P (m * k + r)) :=
      chord_le_polyline P (m * k) k
    linarith [ih]

/-- **C7 (amended).** For nested samplings — `s1 ∣ s2`, `s1 ≤ s2`, both
positive — the polyline estimate is monotone: every coarse chord spans a
block of `s2 / s1` fine chords, and the triangle inequality bounds it by
their sum.  (Determinism for fixed `steps` holds because
`approximate_length` is a pure function of `(seg, steps)`.) -/
theorem approximate_length_mono_nested (seg : List Point) (s1 s2 : ℕ)
    (hs : 0 < s1) (hdvd : s1 ∣ s2) (hle : s1 ≤ s2) (hseg : seg ≠ []) :
    (approximate_length seg s1).getD 0 ≤ (approximate_length seg s2).getD 0 := by
  obtain ⟨k, rfl⟩ := hdvd
  have hk : 0 < k := by
    rcases Nat.eq_zero_or_pos k with rfl | hk
    · simp at hle; omega
    · exact hk
  rw [approximate_length_of_ne_nil seg hseg s1,
    approximate_length_of_ne_nil seg hseg (s1 * k), Option.getD_some, Option.getD_some]
  have hfine : ∑ i ∈ Finset.range (s1 * k),
      chordR (evalPt seg (((i : ℚ) + 1) / ((s1 * k : ℕ) : ℚ)))
        (evalPt seg ((i : ℚ) / ((s1 * k : ℕ) : ℚ))) =
      ∑ i ∈ Finset.range (s1 * k),
        chordR (evalPt seg (((i + 1 : ℕ) : ℚ) / ((s1 * k : ℕ) : ℚ)))
          (evalPt seg (((i : ℕ) : ℚ) / ((s1 * k : ℕ) : ℚ))) := by
    refine Finset.sum_congr rfl fun i _ => ?_
    norm_num
  have hcoarse : ∑ j ∈ Finset.range s1,
      chordR (evalPt seg (((j : ℚ) + 1) / ((s1 : ℕ) : ℚ)))
        (evalPt seg ((j : ℚ) / ((s1 : ℕ) : ℚ))) =
      ∑ j ∈ Finset.range s1,
        chordR (evalPt seg ((((j + 1) * k : ℕ) : ℚ) / ((s1 * k : ℕ) : ℚ)))
          (evalPt seg (((j * k : ℕ) : ℚ) / ((s1 * k : ℕ) : ℚ))) := by
    refine Finset.sum_congr rfl fun j _ => ?_
    have hkq : ((k : ℚ)) ≠ 0 := by exact_mod_cast hk.ne'
    have e1 : (((j + 1) * k : ℕ) : ℚ) / ((s1 * k : ℕ) : ℚ) = ((j : ℚ) + 1) / (s1 : ℚ) := by
      push_cast
      rw [mul_div_mul_right _ _ hkq]
    have e2 : ((j * k : ℕ) : ℚ) / ((s1 * k : ℕ) : ℚ) = (j : ℚ) / (s1 : ℚ) := by
      push_cast
      rw [mul_div_mul_right _ _ hkq]
    rw [e1, e2]
  rw [hfine, hcoarse]
  exact polyline_coarse_le_fine (fun i => evalPt seg (((i : ℕ) : ℚ) / ((s1 * k : ℕ) : ℚ))) k s1

/-- Witness for the amended C7 on the segment `[(0,0),(1,1)]` with the
nested step pair `1 ∣ 2`. -/
theorem approximate_length_mono_nested_witness :
    (approximate_length [(⟨0, 0⟩ : Point), ⟨1, 1⟩] 1).getD 0 ≤
      (approximate_length [(⟨0, 0⟩ : Point), ⟨1, 1⟩] 2).getD 0 :=
  approximate_length_mono_nested [⟨0, 0⟩, ⟨1, 1⟩] 1 2 (by norm_num)
    (by norm_num) (by norm_num) (by simp)

/-- Counterexample to C7 as stated: for the quadratic segment
`[(0,0),(1/2,10),(1,0)]` the step counts `2 < 3` give a strictly
*shorter* 3-step polyline — the 2-step sampling hits the curve's apex
`(1/2, 5)` while the 3-step one straddles it.  (The claimed monotonicity
only holds for nested samplings, e.g. `50 ∣ 200 ∣ 800`.) -/
theorem approximate_length_not_monotone :
    (2 : ℕ) < 3 ∧
      (approximate_length [(⟨0, 0⟩ : Point), ⟨1/2, 10⟩, ⟨1, 0⟩] 3).getD 0 <
        (approximate_length [(⟨0, 0⟩ : Point), ⟨1/2, 10⟩, ⟨1, 0⟩] 2).getD 0 := by
  refine ⟨by norm_num, ?_⟩
  rw [approximate_length_of_ne_nil _ (by simp) 3, approximate_length_of_ne_nil _ (by simp) 2,
    Option.getD_some, Option.getD_some]
  norm_num [Finset.sum_range_succ, evalPt, de_casteljau, deCasteljauStep, lerp,
    Function.iterate_succ, chordR, hypotR_cast]
  have h81 : Real.sqrt 81 = 9 := by
    rw [show (81 : ℝ) = 9 ^ 2 by norm_num, Real.sqrt_sq (by norm_num)]
  have h9 : Real.sqrt 9 = 3 := by
    rw [show (9 : ℝ) = 3 ^ 2 by norm_num, Real.sqrt_sq (by norm_num)]
  have h4 : Real.sqrt 4 = 2 := by
    rw [show (4 : ℝ) = 2 ^ 2 by norm_num, Real.sqrt_sq (by norm_num)]
  have hu : Real.sqrt 1609 < 201 / 5 := (Real.sqrt_lt' (by norm_num)).mpr (by norm_num)
  have hl : (10 : ℝ) < Real.sqrt 101 := by
    rw [Real.lt_sqrt (by norm_num)]
    norm_num
  rw [h81, h9, h4]
  have h3 : ((3 : ℝ))⁻¹ = 1 / 3 := by norm_num
  rw [h3]
  linarith

/-! ## C4: `_add_control_point` -/

theorem allCands_mem_intro (x y : ℚ) :
    ∀ (l : List (List Point)) (si si' : ℕ) (d : ℚ), si' < l.length →
      d ∈ candDists x y (l.getD si' []) → (si + si', d) ∈ allCands x y l si := by
  intro l
  induction l with
  | nil => intro si si' d h _; simp at h
  | cons seg rest ih =>
    intro si si' d h hd
    cases si' with
    | zero =>
      simp only [List.getD_cons_zero] at hd
      simp only [allCands, Nat.add_zero, List.mem_append, List.mem_map]
      exact Or.inl ⟨d, hd, rfl⟩
    | succ si' =>
      simp only [List.getD_cons_succ] at hd
      simp only [allCands, List.mem_append]
      refine Or.inr ?_
      have := ih (si + 1) si' d (by simpa using h) hd
      have harith : si + 1 + si' = si + (si' + 1) := by omega
      rwa [harith] at this

theorem allCands_mem_elim (x y : ℚ) :
    ∀ (l : List (List Point)) (si : ℕ) (p : ℕ × ℚ), p ∈ allCands x y l si →
      si ≤ p.1 ∧ p.1 - si < l.length ∧ p.2 ∈ candDists x y (l.getD (p.1 - si) []) := by
  intro l
  induction l with
  | nil => intro si p h; simp [allCands] at h
  | cons seg rest ih =>
    intro si p h
    simp only [allCands, List.mem_append, List.mem_map] at h
    rcases h with ⟨d, hd, rfl⟩ | h
    · simp only [Nat.le_refl, Nat.sub_self, List.getD_cons_zero, List.length_cons]
      exact ⟨trivial, by omega, hd⟩
    · obtain ⟨h1, h2, h3⟩ := ih (si + 1) p h
      refine ⟨by omega, by simp; omega, ?_⟩
      have harith : p.1 - si = (p.1 - (si + 1)) + 1 := by omega
      rw [harith, List.getD_cons_succ]
      exact h3

theorem allCands_pairwise (x y : ℚ) :
    ∀ (l : List (List Point)) (si : ℕ),
      List.Pairwise (fun p q : ℕ × ℚ => p.1 ≤ q.1) (allCands x y l si) := by
  intro l
  induction l with
  | nil => intro si; simp [allCands]
  | cons seg rest ih =>
    intro si
    rw [allCands, List.pairwise_append]
    refine ⟨?_, ih (si + 1), ?_⟩
    · rw [List.pairwise_map]
      have htriv : ∀ m : List ℚ, List.Pairwise (fun _ _ : ℚ => si ≤ si) m := by
        intro m
        induction m with
        | nil => exact List.Pairwise.nil
        | cons a t iht => exact List.Pairwise.cons (fun _ _ => le_refl si) iht
      exact htriv _
    · intro a ha b hb
      obtain ⟨d, _, rfl⟩ := List.mem_map.mp ha
      have := (allCands_mem_elim x y rest (si + 1) b hb).1
      omega

theorem bestInsertionSeg_cases (segments : List (List Point)) (x y : ℚ) :
    (allCands x y segments 0 = [] ∧ bestInsertionSeg segments x y = 0) ∨
    (bestInsertionSeg segments x y < segments.length ∧
      ∃ m, m ∈ candDists x y (segments.getD (bestInsertionSeg segments x y) []) ∧
        (∀ si < segments.length, ∀ d ∈ candDists x y (segments.getD si []), m ≤ d) ∧
        (∀ si < bestInsertionSeg segments x y,
          ∀ d ∈ candDists x y (segments.getD si []), m < d)) := by
  rcases foldl_minUpd_spec (allCands x y segments 0) (0, none) with
    ⟨heq, hall⟩ | ⟨L1, w, L2, hsplit, hres, hlt, h1, h2⟩
  · left
    have hnil : allCands x y segments 0 = [] := by
      cases hc : allCands x y segments 0 with
      | nil => rfl
      | cons a as =>
        have := hall a (by rw [hc]; simp)
        rw [ltOpt_none] at this
        simp at this
    refine ⟨hnil, ?_⟩
    rw [bestInsertionSeg, hnil]
    rfl
  · right
    have hwmem : w ∈ allCands x y segments 0 := by rw [hsplit]; simp
    obtain ⟨-, hlen, hcd⟩ := allCands_mem_elim x y segments 0 w hwmem
    rw [Nat.sub_zero] at hlen hcd
    have hbs : bestInsertionSeg segments x y = w.1 := by rw [bestInsertionSeg, hres]
    refine ⟨by omega, w.2, by rw [hbs]; exact hcd, ?_, ?_⟩
    · intro si hsi d hd
      have hmem := allCands_mem_intro x y segments 0 si d hsi hd
      rw [Nat.zero_add] at hmem
      rw [hsplit] at hmem
      rcases List.mem_append.mp hmem with hm | hm
      · exact le_of_lt (h1 _ hm)
      · rcases List.mem_cons.mp hm with hmw | hm2
        · rw [show w.2 = d from congrArg Prod.snd hmw.symm]
        · exact h2 _ hm2
    · intro si hsi d hd
      rw [hbs] at hsi
      have hsil : si < segments.length := by omega
      have hmem := allCands_mem_intro x y segments 0 si d hsil hd
      rw [Nat.zero_add] at hmem
      rw [hsplit] at hmem
      rcases List.mem_append.mp hmem with hm | hm
      · exact h1 _ hm
      · exfalso
        have hpair := allCands_pairwise x y segments 0
        rw [hsplit] at hpair
        obtain ⟨-, hp2, -⟩ := List.pairwise_append.mp hpair
        rcases List.mem_cons.mp hm with hmw | hm2
        · have : si = w.1 := congrArg Prod.fst hmw
          omega
        · have := (List.pairwise_cons.mp hp2).1 _ hm2
          simp only at this
          omega

theorem enum_getElem? (keys : List ℚ) (j : ℕ) (hj : j < keys.length) :
    keys.enum[j]? = some (j, keys.getD j 0) := by
  rw [List.enum_eq_enumFrom, List.getElem?_enumFrom, List.getElem?_eq_getElem hj]
  simp [List.getElem?_eq_getElem hj]

/-- Python's `min(range(len(keys)), key=...)` (as realised by the stable
scan `argminIdx`): the first index attaining the minimum key. -/
theorem argminIdx_spec (keys : List ℚ) (hne : keys ≠ []) :
    argminIdx keys < keys.length ∧
      (∀ j < keys.length, keys.getD (argminIdx keys) 0 ≤ keys.getD j 0) ∧
      (∀ j < argminIdx keys, keys.getD (argminIdx keys) 0 < keys.getD j 0) := by
  rcases foldl_minUpd_spec keys.enum (0, none) with
    ⟨heq, hall⟩ | ⟨L1, w, L2, hsplit, hres, hlt, h1, h2⟩
  · exfalso
    cases keys with
    | nil => exact hne rfl
    | cons k t =>
      have := hall (0, k) (by simp [List.enum_cons])
      rw [ltOpt_none] at this
      simp at this
  · have henumlen : keys.enum.length = keys.length := by simp
    rw [hsplit] at henumlen
    simp only [List.length_append, List.length_cons] at henumlen
    have hi : L1.length < keys.length := by omega
    have hw : w = (L1.length, keys.getD L1.length 0) := by
      have hg : keys.enum[L1.length]? = some w := by
        rw [hsplit, List.getElem?_append_right (le_refl L1.length)]
        simp
      rw [enum_getElem? keys L1.length hi] at hg
      exact (Option.some.inj hg).symm
    have hargG : argminIdx keys = w.1 := by rw [argminIdx, hres]
    have hw1 : w.1 = L1.length := by rw [hw]
    have hw2 : w.2 = keys.getD L1.length 0 := by rw [hw]
    refine ⟨by omega, ?_, ?_⟩
    · intro j hj
      have hmem : (j, keys.getD j 0) ∈ keys.enum := List.getElem?_mem (enum_getElem? keys j hj)
      rw [hsplit] at hmem
      rw [hargG, hw1, ← hw2]
      rcases List.mem_append.mp hmem with hm | hm
      · exact le_of_lt (h1 _ hm)
      · rcases List.mem_cons.mp hm with hmw | hm2
        · rw [show w.2 = keys.getD j 0 from congrArg Prod.snd hmw.symm]
        · exact h2 _ hm2
    · intro j hj
      rw [hargG, hw1] at hj ⊢
      have hjk : j < keys.length := by omega
      have hgj := enum_getElem? keys j hjk
      rw [hsplit, List.getElem?_append_left hj] at hgj
      have hmem : (j, keys.getD j 0) ∈ L1 := List.getElem?_mem hgj
      have := h1 _ hmem
      rw [hw2] at this
      simpa using this

theorem getD_map_dist (seg : List Point) (x y : ℚ) (j : ℕ) (hj : j < seg.length) :
    (seg.map (fun p => dist2 p x y)).getD j 0 = dist2 (ptD seg j) x y := by
  rw [List.getD_eq_getElem _ _ (by simpa using hj), List.getElem_map, ptD,
    List.getD_eq_getElem _ _ hj]

/-- **C4 (amended).** `add_point` targets the first segment whose
candidate distance — `point_to_segment_distance` to one of its edges, or,
for a single-point segment, the direct distance to its sole point —
attains the global minimum over all segments (the embedding compares
squared distances, which order exactly like the source's `math.hypot`
values).  Within the selected segment, when nonempty, the new point is
inserted immediately after the existing point nearest to `(x, y)` by
direct Euclidean distance, ties to the lowest index; in particular the
spec's `[(0,0),(100,0)]`/`(50,5)` scenario inserts at index 1 (see the
witness).  An empty selected segment receives the point as its sole
point. -/
theorem add_point_spec (segments : List (List Point)) (x y : ℚ) (hne : segments ≠ []) :
    bestInsertionSeg segments x y < segments.length ∧
    ((allCands x y segments 0 = [] ∧ bestInsertionSeg segments x y = 0) ∨
      (∃ m, m ∈ candDists x y (segments.getD (bestInsertionSeg segments x y) []) ∧
        (∀ si < segments.length, ∀ d ∈ candDists x y (segments.getD si []), m ≤ d) ∧
        (∀ si < bestInsertionSeg segments x y,
          ∀ d ∈ candDists x y (segments.getD si []), m < d))) ∧
    (segments.getD (bestInsertionSeg segments x y) [] = [] →
      add_point segments x y = segments.set (bestInsertionSeg segments x y) [⟨x, y⟩]) ∧
    (segments.getD (bestInsertionSeg segments x y) [] ≠ [] →
      ∃ idx, idx < (segments.getD (bestInsertionSeg segments x y) []).length ∧
        add_point segments x y = segments.set (bestInsertionSeg segments x y)
          ((segments.getD (bestInsertionSeg segments x y) []).insertIdx (idx + 1) ⟨x, y⟩) ∧
        (∀ j < (segments.getD (bestInsertionSeg segments x y) []).length,
          rdist (ptD (segments.getD (bestInsertionSeg segments x y) []) idx) x y ≤
            rdist (ptD (segments.getD (bestInsertionSeg segments x y) []) j) x y) ∧
        (∀ j < idx,
          rdist (ptD (segments.getD (bestInsertionSeg segments x y) []) idx) x y <
            rdist (ptD (segments.getD (bestInsertionSeg segments x y) []) j) x y)) := by
  refine ⟨?_, ?_, ?_, ?_⟩
  · rcases bestInsertionSeg_cases segments x y with ⟨-, h0⟩ | ⟨hlt, -⟩
    · rw [h0]
      exact List.length_pos.mpr hne
    · exact hlt
  · rcases bestInsertionSeg_cases segments x y with ⟨h1, h2⟩ | ⟨-, hrest⟩
    · exact Or.inl ⟨h1, h2⟩
    · exact Or.inr hrest
  · intro hempty
    simp only [add_point]
    rw [if_pos (by rw [List.isEmpty_iff]; exact hempty)]
  · intro hnonempty
    have hkeys : (segments.getD (bestInsertionSeg segments x y) []).map
        (fun p => dist2 p x y) ≠ [] := by
      simpa using hnonempty
    obtain ⟨hidx, hmin, hfirst⟩ := argminIdx_spec _ hkeys
    rw [List.length_map] at hidx
    refine ⟨argminIdx ((segments.getD (bestInsertionSeg segments x y) []).map
      (fun p => dist2 p x y)), hidx, ?_, ?_, ?_⟩
    · simp only [add_point]
      rw [if_neg (by rw [List.isEmpty_iff]; exact hnonempty)]
    · intro j hj
      rw [rdist_le_rdist_iff]
      have := hmin j (by simpa using hj)
      rwa [getD_map_dist _ x y _ hidx, getD_map_dist _ x y _ hj] at this
    · intro j hj
      rw [rdist_lt_rdist_iff]
      have := hfirst j hj
      rwa [getD_map_dist _ x y _ hidx, getD_map_dist _ x y _ (by omega)] at this

/-- Counterexample to C4 as stated: with the collection
`[[(0,0)], [(100,0),(200,0)]]` and query `(0,5)`, segment 0 has *no*
edges (`edgeDists` empty) while segment 1 does, so "the segment whose
edge has minimal `point_to_segment_distance`" is segment 1; yet
`add_point` inserts into segment 0 — its single point lies 5 away,
beating segment 1's nearest edge (distance ≈ 100.12), via the code's
extra single-point-segment rule that the claim omits. -/
theorem add_point_not_pure_edge_rule :
    edgeDists 0 5 [(⟨0, 0⟩ : Point)] = [] ∧
      edgeDists 0 5 [(⟨100, 0⟩ : Point), ⟨200, 0⟩] ≠ [] ∧
      add_point [[(⟨0, 0⟩ : Point)], [⟨100, 0⟩, ⟨200, 0⟩]] 0 5 =
        [[⟨0, 0⟩, ⟨0, 5⟩], [⟨100, 0⟩, ⟨200, 0⟩]] := by
  refine ⟨rfl, by simp [edgeDists], ?_⟩
  norm_num [add_point, bestInsertionSeg, allCands, candDists, point_to_segment_distance_sq,
    dist2, argminIdx, minUpd, ltOpt, List.enum, List.enumFrom, List.insertIdx,
    Point.mk.injEq]

/-- Witness for the amended C4 at the spec's own scenario: segment
`[(0,0),(100,0)]`, query `(50,5)` — the (only) segment is selected and
the new point lands at index 1, total length 3. -/
theorem add_point_spec_witness :
    bestInsertionSeg [[(⟨0, 0⟩ : Point), ⟨100, 0⟩]] 50 5 < 1 ∧
      add_point [[(⟨0, 0⟩ : Point), ⟨100, 0⟩]] 50 5 = [[⟨0, 0⟩, ⟨50, 5⟩, ⟨100, 0⟩]] :=
  ⟨by simpa using (add_point_spec [[⟨0, 0⟩, ⟨100, 0⟩]] 50 5 (by simp)).1,
   by norm_num [add_point, bestInsertionSeg, allCands, candDists, point_to_segment_distance_sq,
     dist2, argminIdx, minUpd, ltOpt, List.enum, List.enumFrom, List.insertIdx,
     Point.mk.injEq]⟩

end BezierViz
